import Mathlib

/-!
Verification development for the storage client library: pagination driver
(`listAll` / `listAllHelper`), root-reference guards, `RequestInfo` construction,
`list` option validation, `getDownloadURL` null handling, `BrowserPersistence`
storage round trips, and the `splitStringBySize` helper.

The definitions are shallow embeddings of the TypeScript source.  Asynchronous
network interaction is modelled by scripting the connection: a scripted run is
given the finite sequence of pages the server serves, and the embedding returns
both the trace of issued requests (each recorded by the `pageToken` it carries)
and the resolution value of the run (`none` when the script is exhausted while a
request is still pending, i.e. the promise never settles in the model).
-/

namespace Storage

/-- Result of a single list request, mirroring the `ListResult` interface:
`prefixes` and `items` (modelled by their paths) and an optional continuation
token `nextPageToken`. A scripted page is itself a `ListResult`. -/
structure ListResult where
  prefixes : List String
  items : List String
  nextPageToken : Option String := none
deriving DecidableEq, Repr

/-- The accumulator created by `listAll`: empty item and prefix sequences and no
`nextPageToken` field set. -/
def emptyAccumulator : ListResult :=
  { prefixes := [], items := [] }

/-- One accumulation step of `listAllHelper`:
`accumulator.prefixes.push(...nextPage.prefixes)` and
`accumulator.items.push(...nextPage.items)`.  The spread push appends the
page's sequences in order; the accumulator's token field is untouched. -/
def accAppendPage (acc page : ListResult) : ListResult :=
  { acc with
    prefixes := acc.prefixes ++ page.prefixes,
    items := acc.items ++ page.items }

/-- Shallow embedding of `listAllHelper` run against a scripted connection.
Each issued list request is answered by the next page of `script`; the first
component records the `pageToken` carried by every issued request, in order
(`none` models the `undefined` token of the initial request).  The second
component is the resolved accumulator, or `none` when the script runs out while
a request is pending (the model's cut for a run that never settles).  The
recursive call happens exactly when the received page's `nextPageToken` is
non-null, and passes that token. -/
def listAllHelper (script : List ListResult) (pageToken : Option String)
    (acc : ListResult) : List (Option String) × Option ListResult :=
  match script with
  | [] => ([pageToken], none)
  | page :: rest =>
    match page.nextPageToken with
    | none => ([pageToken], some (accAppendPage acc page))
    | some t =>
      let r := listAllHelper rest (some t) (accAppendPage acc page)
      (pageToken :: r.1, r.2)

/-- Shallow embedding of `listAll`: creates the empty accumulator and runs
`listAllHelper` with no page token (the source passes `pageToken` as
`undefined` on the first request). -/
def listAll (script : List ListResult) : List (Option String) × Option ListResult :=
  listAllHelper script none emptyAccumulator

/-- A finite scripted sequence of list pages as served through one complete
`listAll` run: every page except the last announces a continuation token, and
the last page carries none (absence signals exhaustion). -/
def wfScript : List ListResult → Bool
  | [] => false
  | [p] => p.nextPageToken.isNone
  | p :: rest => p.nextPageToken.isSome && wfScript rest

/-- The pages actually served (responded to a request) during a `listAll` run
over a script: the driver consumes pages until the first one without a
continuation token, or until the script is exhausted. -/
def servedPages : List ListResult → List ListResult
  | [] => []
  | p :: rest =>
    match p.nextPageToken with
    | none => [p]
    | some _ => p :: servedPages rest

/-- The page tokens carried by the follow-up requests of a run: one request per
served page with a non-null continuation token, carrying that token. -/
def tokensIssued : List ListResult → List (Option String)
  | [] => []
  | p :: rest =>
    match p.nextPageToken with
    | none => []
    | some t => some t :: tokensIssued rest

/-- A storage location: bucket plus object path, mirroring
`implementation/location`'s `Location` as used by `Reference` (the root of a
bucket has the empty path). -/
structure Location where
  bucket : String
  path : String
deriving DecidableEq, Repr

/-- A `Reference` as far as the embedded operations inspect it: its
`_location`. The `_service` handle only forwards requests and is not modelled. -/
structure Reference where
  location : Location
deriving DecidableEq, Repr

/-- Classified storage errors raised by the embedded code paths.
`invalidRootOperation` and `noDownloadURL` mirror the factories imported from
`implementation/error`; `invalidArgument` is the error raised by the
`validateNumber` validator. -/
inductive StorageError where
  | invalidRootOperation (name : String)
  | noDownloadURL
  | invalidArgument (name : String)
deriving DecidableEq, Repr

/-- Embedding of `Reference._throwIfRoot`: raises `invalidRootOperation name`
exactly when the reference's location path is the empty string. -/
def Reference.throwIfRoot (ref : Reference) (name : String) :
    Except StorageError Unit :=
  if ref.location.path = "" then
    .error (.invalidRootOperation name)
  else
    .ok ()

/-- Object metadata as far as the embedded operations inspect it. -/
structure Metadata where
  contentType : Option String := none
deriving DecidableEq, Repr

/-- The string formats accepted by `uploadString`. -/
inductive StringFormat where
  | raw
  | base64
  | base64url
  | dataUrl
deriving DecidableEq, Repr

/-- Result of decoding a string into bytes, mirroring `StringData`. The
decoding itself (`dataFromString`, from the out-of-scope string layer) is
embedded abstractly: it records the format and value and an optional content
type; no embedded claim inspects the produced bytes. -/
structure StringData where
  format : StringFormat
  value : String
  data : List Nat := []
  contentType : Option String := none
deriving DecidableEq, Repr

/-- Abstract embedding of `dataFromString` from `implementation/string` (an
out-of-scope collaborator of the reference layer): records its inputs. -/
def dataFromString (format : StringFormat) (value : String) : StringData :=
  { format := format, value := value }

/-- A possibly-non-numeric JavaScript value, as needed by the
`typeof options.maxResults === 'number'` check of `list`. -/
inductive JsVal where
  | num (n : Int)
  | nonNum
deriving DecidableEq, Repr

/-- Options accepted by `list`: an optional `maxResults` (any JavaScript
value; only numbers are validated) and an optional `pageToken`. -/
structure ListOptions where
  maxResults : Option JsVal := none
  pageToken : Option String := none
deriving DecidableEq, Repr

/-- The network request built by an operation, recorded abstractly by which
builder from `implementation/requests` was invoked and with which arguments.
The builders themselves are out-of-scope collaborators; the operations under
verification only construct these descriptions and hand them to
`makeRequestWithTokens`. -/
inductive BuiltRequest where
  | multipartUpload (loc : Location) (data : List Nat) (metadata : Option Metadata)
  | getMetadataReq (loc : Location)
  | updateMetadataReq (loc : Location) (metadata : Metadata)
  | getDownloadUrlReq (loc : Location)
  | deleteObjectReq (loc : Location)
  | listReq (loc : Location) (delimiter : String) (pageToken : Option String)
      (maxResults : Option JsVal)
deriving DecidableEq, Repr

/-- Embedding of `uploadBytes`: root guard first, then the multipart upload
request is built from the reference's location, data and metadata. -/
def uploadBytes (ref : Reference) (data : List Nat)
    (metadata : Option Metadata) : Except StorageError BuiltRequest := do
  let _ ← ref.throwIfRoot "uploadBytes"
  .ok (.multipartUpload ref.location data metadata)

/-- The upload task produced by `uploadBytesResumable`, recorded by its
construction arguments. -/
structure UploadTask where
  ref : Reference
  blob : List Nat
  metadata : Option Metadata
deriving DecidableEq, Repr

/-- Embedding of `uploadBytesResumable`: root guard first, then the task is
constructed. -/
def uploadBytesResumable (ref : Reference) (data : List Nat)
    (metadata : Option Metadata) : Except StorageError UploadTask := do
  let _ ← ref.throwIfRoot "uploadBytesResumable"
  .ok { ref := ref, blob := data, metadata := metadata }

/-- Embedding of `uploadString`: root guard first, then the value is decoded
with `dataFromString`, the metadata's content type is defaulted from the
decoded data, and the upload proceeds as `uploadBytes` does (the inner
`uploadBytes` call re-checks the root guard on the same reference). -/
def uploadString (ref : Reference) (value : String) (format : StringFormat)
    (metadata : Option Metadata) : Except StorageError BuiltRequest := do
  let _ ← ref.throwIfRoot "uploadString"
  let data := dataFromString format value
  let metadataClone : Metadata :=
    match metadata with
    | none => {}
    | some m => m
  let metadataClone :=
    if metadataClone.contentType = none ∧ data.contentType ≠ none then
      { metadataClone with contentType := data.contentType }
    else
      metadataClone
  uploadBytes ref data.data (some metadataClone)

/-- Embedding of `getMetadata`: root guard first, then the metadata request is
built. -/
def getMetadata (ref : Reference) : Except StorageError BuiltRequest := do
  let _ ← ref.throwIfRoot "getMetadata"
  .ok (.getMetadataReq ref.location)

/-- Embedding of `updateMetadata`: root guard first, then the update request
is built. -/
def updateMetadata (ref : Reference) (metadata : Metadata) :
    Except StorageError BuiltRequest := do
  let _ ← ref.throwIfRoot "updateMetadata"
  .ok (.updateMetadataReq ref.location metadata)

/-- Embedding of the request-building stage of `getDownloadURL`: root guard
first, then the download-URL request is built. -/
def getDownloadURLRequest (ref : Reference) : Except StorageError BuiltRequest := do
  let _ ← ref.throwIfRoot "getDownloadURL"
  .ok (.getDownloadUrlReq ref.location)

/-- Embedding of `getDownloadURL` including its resolution handler. `resp` is
the value the underlying request resolves with (`null` modelled as `none`):
a null URL is turned into the `noDownloadURL` rejection, a non-null URL is
returned unchanged. -/
def getDownloadURL (ref : Reference) (resp : Option String) :
    Except StorageError String := do
  let _ ← getDownloadURLRequest ref
  match resp with
  | none => .error .noDownloadURL
  | some url => .ok url

/-- Embedding of `deleteObject`: root guard first, then the delete request is
built. -/
def deleteObject (ref : Reference) : Except StorageError BuiltRequest := do
  let _ ← ref.throwIfRoot "deleteObject"
  .ok (.deleteObjectReq ref.location)

/-- Modelled from the spec: `validateNumber` from `implementation/type` is not
under src/. Per the spec, an invalid option value is programmer misuse
"raised synchronously before any network attempt"; modelled as raising an
invalid-argument error exactly when the value lies outside
`[minValue, maxValue]`. -/
def validateNumber (argname : String) (minValue maxValue value : Int) :
    Except StorageError Unit :=
  if value < minValue ∨ maxValue < value then
    .error (.invalidArgument argname)
  else
    .ok ()

/-- The option validation performed at the top of `list`: when an options
object is present and its `maxResults` is a number, it is validated against
the inclusive range `[1, 1000]`; otherwise nothing is checked. -/
def checkListOptions (options : Option ListOptions) :
    Except StorageError Unit :=
  match options with
  | none => .ok ()
  | some o =>
    match o.maxResults with
    | some (.num n) => validateNumber "options.maxResults" 1 1000 n
    | _ => .ok ()

/-- Embedding of `list`: validates `maxResults` when present and numeric, then
builds the list request with delimiter `"/"`, the options' page token and
`maxResults` value. -/
def list (ref : Reference) (options : Option ListOptions) :
    Except StorageError BuiltRequest := do
  let _ ← checkListOptions options
  let op := options.getD {}
  .ok (.listReq ref.location "/" op.pageToken op.maxResults)

/-- A url parameter value: `string | number`, as in the `UrlParams` map. -/
inductive UrlParamValue where
  | str (s : String)
  | num (n : Int)
deriving DecidableEq, Repr

/-- A request body: `Blob | string | Uint8Array` (nullability is modelled by
`Option` at the field). -/
inductive RequestBody where
  | blob (bytes : List Nat)
  | str (s : String)
  | bytes (bs : List Nat)
deriving DecidableEq, Repr

/-- A single HTTP-like exchange handle, as passed to response handlers. Its
internals are irrelevant to the embedded claims. -/
structure Connection where
  connId : Nat := 0
deriving DecidableEq, Repr

/-- Embedding of the `RequestInfo` class: the four constructor parameters
`url`, `method`, `handler` and `timeout`, plus the field initializers
`urlParams = {}`, `headers = {}`, `body = null`, `errorHandler = null`,
`progressCallback = null`, `successCodes = [200]`,
`additionalRetryCodes = []`. -/
structure RequestInfo (T : Type) where
  url : String
  method : String
  handler : Connection → String → T
  timeout : Int
  urlParams : List (String × UrlParamValue) := []
  headers : List (String × String) := []
  body : Option RequestBody := none
  errorHandler : Option (Connection → StorageError → StorageError) := none
  progressCallback : Option (Int → Int → Unit) := none
  successCodes : List Int := [200]
  additionalRetryCodes : List Int := []

/-- The `RequestInfo` constructor: `new RequestInfo(url, method, handler,
timeout)` — every other field takes its initializer. -/
def RequestInfo.make {T : Type} (url method : String)
    (handler : Connection → String → T) (timeout : Int) : RequestInfo T :=
  { url := url, method := method, handler := handler, timeout := timeout }

/-- Modelled from the spec: the request-building and executor code that
populates a `RequestInfo` after construction is not under src/. Per the spec
(§3, RequestSpec) that code assigns only the headers, body, url parameters,
the error-remapping hook, the progress callback and the status-code lists —
never `url` or `method`, which are "never mutated after construction". Each
constructor below records one such field assignment. -/
inductive FieldWrite (T : Type) where
  | setUrlParams (v : List (String × UrlParamValue))
  | setHeaders (v : List (String × String))
  | setBody (v : Option RequestBody)
  | setErrorHandler (v : Option (Connection → StorageError → StorageError))
  | setProgressCallback (v : Option (Int → Int → Unit))
  | setSuccessCodes (v : List Int)
  | setAdditionalRetryCodes (v : List Int)

/-- Apply one field assignment to a `RequestInfo`. -/
def applyFieldWrite {T : Type} : FieldWrite T → RequestInfo T → RequestInfo T
  | .setUrlParams v, ri => { ri with urlParams := v }
  | .setHeaders v, ri => { ri with headers := v }
  | .setBody v, ri => { ri with body := v }
  | .setErrorHandler v, ri => { ri with errorHandler := v }
  | .setProgressCallback v, ri => { ri with progressCallback := v }
  | .setSuccessCodes v, ri => { ri with successCodes := v }
  | .setAdditionalRetryCodes v, ri => { ri with additionalRetryCodes := v }

/-- Apply a sequence of field assignments, oldest first. -/
def applyFieldWrites {T : Type} (ws : List (FieldWrite T))
    (ri : RequestInfo T) : RequestInfo T :=
  ws.foldl (fun r w => applyFieldWrite w r) ri

end Storage

namespace AuthPersistence

/-- The web `Storage` backing a `BrowserPersistence` instance (local or
session storage): a key-value map of strings, `getItem` returning null for a
missing key. -/
def Store := String → Option String

/-- `storage.setItem(key, value)`. -/
def Store.setItem (st : Store) (k v : String) : Store :=
  fun q => if q = k then some v else st q

/-- `storage.removeItem(key)`. -/
def Store.removeItem (st : Store) (k : String) : Store :=
  fun q => if q = k then none else st q

/-- `storage.getItem(key)`: null for a key never set or removed. -/
def Store.getItem (st : Store) (k : String) : Option String := st k

/-- A storage with no keys set. -/
def emptyStore : Store := fun _ => none

/-- Embedding of `BrowserPersistence.set`:
`this.storage.setItem(key, JSON.stringify(value))`. `JSON.stringify` is a
JavaScript builtin, taken as the `stringify` parameter. -/
def BrowserPersistence.set {V : Type} (stringify : V → String) (st : Store)
    (k : String) (v : V) : Store :=
  st.setItem k (stringify v)

/-- Embedding of `BrowserPersistence.get`:
`const json = this.storage.getItem(key); return json ? JSON.parse(json) : null`.
A missing item, and the falsy empty string, yield null; otherwise the stored
string is parsed with the `JSON.parse` builtin, taken as the `parse`
parameter. -/
def BrowserPersistence.get {V : Type} (parse : String → V) (st : Store)
    (k : String) : Option V :=
  match st.getItem k with
  | none => none
  | some json => if json = "" then none else some (parse json)

/-- Embedding of `BrowserPersistence.remove`:
`this.storage.removeItem(key)`. -/
def BrowserPersistence.remove (st : Store) (k : String) : Store :=
  st.removeItem k

end AuthPersistence

namespace DatabaseUtil

/-- The loop of `splitStringBySize` over the not-yet-chunked remainder of the
string (strings are modelled as character lists).  Each iteration pushes
`str.substring(c, c + segsize)` clamped to the string's end — the next
`segsize` characters of the remainder — and advances `c` by `segsize`.
With `segsize = 0` the source loop never advances and diverges; that case is
modelled as `[]` and is unreachable under the claims' `1 ≤ segsize`
hypothesis (the enclosing function only reaches the loop when
`segsize < str.length`). -/
def chunkLoop (segsize : Nat) : List Char → List (List Char)
  | [] => []
  | a :: s =>
    if _hz : segsize = 0 then []
    else ((a :: s).take segsize) :: chunkLoop segsize ((a :: s).drop segsize)
termination_by s => s.length
decreasing_by
  simp only [List.length_drop, List.length_cons]
  omega

/-- Embedding of `splitStringBySize`: a string no longer than `segsize` is
returned as the single segment `[str]`; otherwise the loop chunks it. -/
def splitStringBySize (str : List Char) (segsize : Nat) : List (List Char) :=
  if str.length ≤ segsize then [str] else chunkLoop segsize str

end DatabaseUtil

namespace Storage

theorem listAllHelper_trace (script : List ListResult) :
    ∀ pageToken acc, (listAllHelper script pageToken acc).1 =
      pageToken :: tokensIssued script := by
  induction script with
  | nil => intro tok acc; simp [listAllHelper, tokensIssued]
  | cons page rest ih =>
    intro tok acc
    cases h : page.nextPageToken with
    | none => simp [listAllHelper, tokensIssued, h]
    | some t => simp [listAllHelper, tokensIssued, h, ih]

theorem wfScript_cons_none {p : ListResult} {rest : List ListResult}
    (h : wfScript (p :: rest) = true) (hp : p.nextPageToken = none) :
    rest = [] := by
  cases rest with
  | nil => rfl
  | cons q rest' => simp [wfScript, hp] at h

theorem wfScript_cons_some {p : ListResult} {rest : List ListResult}
    (h : wfScript (p :: rest) = true) {t : String}
    (hp : p.nextPageToken = some t) : wfScript rest = true := by
  cases rest with
  | nil => simp [wfScript, hp] at h
  | cons q rest' => simpa [wfScript, hp] using h

theorem listAllHelper_resolves_wf (script : List ListResult) :
    wfScript script = true → ∀ pageToken acc,
      (listAllHelper script pageToken acc).2 =
        some { prefixes := acc.prefixes ++ (script.map ListResult.prefixes).flatten,
               items := acc.items ++ (script.map ListResult.items).flatten,
               nextPageToken := acc.nextPageToken } := by
  induction script with
  | nil => intro h; simp [wfScript] at h
  | cons page rest ih =>
    intro h tok acc
    cases ht : page.nextPageToken with
    | none =>
      have hrest := wfScript_cons_none h ht
      subst hrest
      simp [listAllHelper, ht, accAppendPage]
    | some t =>
      have hwf := wfScript_cons_some h ht
      have h2 := ih hwf (some t) (accAppendPage acc page)
      simp only [listAllHelper, ht]
      rw [h2]
      simp [accAppendPage, List.append_assoc]

theorem tokensIssued_of_served (script : List ListResult) :
    ∀ (i : Nat) (p : ListResult), (servedPages script).get? i = some p →
      (∀ t, p.nextPageToken = some t →
         (tokensIssued script).get? i = some (some t)) ∧
      (p.nextPageToken = none → (tokensIssued script).length = i) := by
  induction script with
  | nil => intro i p hp; simp [servedPages] at hp
  | cons q rest ih =>
    intro i p hp
    cases hq : q.nextPageToken with
    | none =>
      cases i with
      | zero =>
        simp [servedPages, hq] at hp
        subst hp
        refine ⟨fun t ht => ?_, fun _ => ?_⟩
        · rw [hq] at ht; cases ht
        · simp [tokensIssued, hq]
      | succ j => simp [servedPages, hq] at hp
    | some t0 =>
      cases i with
      | zero =>
        simp [servedPages, hq] at hp
        subst hp
        refine ⟨fun t ht => ?_, fun hn => ?_⟩
        · rw [hq] at ht
          injection ht with ht
          subst ht
          simp [tokensIssued, hq]
        · rw [hq] at hn; cases hn
      | succ j =>
        simp only [servedPages, hq, List.get?_cons_succ] at hp
        have hs := ih j p hp
        refine ⟨fun t ht => ?_, fun hn => ?_⟩
        · have hg := hs.1 t ht
          simp only [List.get?_eq_getElem?] at hg
          simp [tokensIssued, hq, hg]
        · simp [tokensIssued, hq, hs.2 hn]

theorem listAllHelper_resolves_of_none (script : List ListResult) :
    (∃ p ∈ script, p.nextPageToken = none) → ∀ pageToken acc,
      ∃ r, (listAllHelper script pageToken acc).2 = some r := by
  induction script with
  | nil => intro h; simp at h
  | cons q rest ih =>
    intro h tok acc
    cases hq : q.nextPageToken with
    | none => exact ⟨accAppendPage acc q, by simp [listAllHelper, hq]⟩
    | some t =>
      have hrest : ∃ p ∈ rest, p.nextPageToken = none := by
        rcases h with ⟨p, hpmem, hpnone⟩
        rcases List.mem_cons.mp hpmem with hpq | hpr
        · rw [hpq, hq] at hpnone; cases hpnone
        · exact ⟨p, hpr, hpnone⟩
      obtain ⟨r, hr⟩ := ih hrest (some t) (accAppendPage acc q)
      refine ⟨r, ?_⟩
      simp only [listAllHelper, hq]
      exact hr

/-- Claim C1: for every finite scripted sequence of list pages (as served
through one complete run: every page but the last carries a continuation
token, the last carries none — `wfScript`), `listAll` resolves with an
accumulator whose `items` are the concatenation of the pages' items in page
order, whose `prefixes` are the concatenation of the pages' prefixes in page
order, and which carries no `nextPageToken`. -/
theorem listAll_accumulates_pages (script : List ListResult)
    (h : wfScript script = true) :
    (listAll script).2 =
      some { prefixes := (script.map ListResult.prefixes).flatten,
             items := (script.map ListResult.items).flatten,
             nextPageToken := none } := by
  have hres := listAllHelper_resolves_wf script h none emptyAccumulator
  simpa [listAll, emptyAccumulator] using hres

theorem listAll_accumulates_pages_witness :
    wfScript [⟨["a1"], ["f1", "f2"], some "tok1"⟩, ⟨["b1"], ["f3"], none⟩] = true ∧
    (listAll [⟨["a1"], ["f1", "f2"], some "tok1"⟩, ⟨["b1"], ["f3"], none⟩]).2 =
      some { prefixes := ["a1", "b1"], items := ["f1", "f2", "f3"],
             nextPageToken := none } := by
  refine ⟨rfl, ?_⟩
  simpa using listAll_accumulates_pages
    [⟨["a1"], ["f1", "f2"], some "tok1"⟩, ⟨["b1"], ["f3"], none⟩] rfl

/-- Claim C2: during a `listAll` run over a scripted connection, every served
page whose `nextPageToken` is non-null is followed by exactly one further list
request carrying that token unmodified as its `pageToken` (request `i + 1` of
the trace), and a served page whose token is absent is followed by no further
request (the request trace ends with the request that fetched it). -/
theorem listAll_token_passthrough (script : List ListResult) (i : Nat)
    (p : ListResult) (hp : (servedPages script).get? i = some p) :
    (∀ t, p.nextPageToken = some t →
       (listAll script).1.get? (i + 1) = some (some t)) ∧
    (p.nextPageToken = none → (listAll script).1.length = i + 1) := by
  have htr : (listAll script).1 = none :: tokensIssued script :=
    listAllHelper_trace script none emptyAccumulator
  have hspec := tokensIssued_of_served script i p hp
  refine ⟨fun t ht => ?_, fun hn => ?_⟩
  · rw [htr]
    simpa using hspec.1 t ht
  · rw [htr]
    simp [hspec.2 hn]

theorem listAll_token_passthrough_witness :
    (servedPages [⟨[], [], some "t0"⟩, ⟨[], [], none⟩]).get? 0 =
      some ⟨[], [], some "t0"⟩ ∧
    (listAll [⟨[], [], some "t0"⟩, ⟨[], [], none⟩]).1.get? 1 =
      some (some "t0") := by
  refine ⟨rfl, ?_⟩
  exact (listAll_token_passthrough [⟨[], [], some "t0"⟩, ⟨[], [], none⟩] 0
    ⟨[], [], some "t0"⟩ rfl).1 "t0" rfl

/-- Claim C4: for every scripted connection in which some page carries no
continuation token, `listAll` terminates and resolves — for scripts of
arbitrary length. The embedded recursion is structural on the script, so the
run is total for every such script regardless of page count. -/
theorem listAll_terminates (script : List ListResult)
    (h : ∃ p ∈ script, p.nextPageToken = none) :
    ∃ r, (listAll script).2 = some r :=
  listAllHelper_resolves_of_none script h none emptyAccumulator

theorem listAll_terminates_witness :
    (∃ p ∈ [ListResult.mk [] [] (some "a"), ListResult.mk [] [] none],
       p.nextPageToken = none) ∧
    ∃ r, (listAll [ListResult.mk [] [] (some "a"),
                   ListResult.mk [] [] none]).2 = some r :=
  ⟨⟨ListResult.mk [] [] none, by simp, rfl⟩,
   listAll_terminates _ ⟨ListResult.mk [] [] none, by simp, rfl⟩⟩

/-- Claim C3: every operation that does not accept a root reference
(`uploadBytes`, `uploadBytesResumable`, `uploadString`, `getMetadata`,
`updateMetadata`, `getDownloadURL`, `deleteObject`) raises the
invalid-root-operation error for its own name, synchronously and before any
request is built, when the reference's location path is empty; on a
non-empty path none of them raises an invalid-root-operation error. -/
theorem root_guard (ref : Reference) (data : List Nat) (meta : Option Metadata)
    (value : String) (format : StringFormat) (mdu : Metadata) :
    (ref.location.path = "" →
      uploadBytes ref data meta =
        .error (.invalidRootOperation "uploadBytes") ∧
      uploadBytesResumable ref data meta =
        .error (.invalidRootOperation "uploadBytesResumable") ∧
      uploadString ref value format meta =
        .error (.invalidRootOperation "uploadString") ∧
      getMetadata ref = .error (.invalidRootOperation "getMetadata") ∧
      updateMetadata ref mdu =
        .error (.invalidRootOperation "updateMetadata") ∧
      getDownloadURLRequest ref =
        .error (.invalidRootOperation "getDownloadURL") ∧
      deleteObject ref = .error (.invalidRootOperation "deleteObject")) ∧
    (ref.location.path ≠ "" →
      (∀ n, uploadBytes ref data meta ≠ .error (.invalidRootOperation n)) ∧
      (∀ n, uploadBytesResumable ref data meta ≠
        .error (.invalidRootOperation n)) ∧
      (∀ n, uploadString ref value format meta ≠
        .error (.invalidRootOperation n)) ∧
      (∀ n, getMetadata ref ≠ .error (.invalidRootOperation n)) ∧
      (∀ n, updateMetadata ref mdu ≠ .error (.invalidRootOperation n)) ∧
      (∀ n, getDownloadURLRequest ref ≠ .error (.invalidRootOperation n)) ∧
      (∀ n, deleteObject ref ≠ .error (.invalidRootOperation n))) := by
  constructor
  · intro h
    refine ⟨?_, ?_, ?_, ?_, ?_, ?_, ?_⟩ <;>
      simp [uploadBytes, uploadBytesResumable, uploadString, getMetadata,
        updateMetadata, getDownloadURLRequest, deleteObject,
        Reference.throwIfRoot, h, Bind.bind, Except.bind]
  · intro h
    refine ⟨?_, ?_, ?_, ?_, ?_, ?_, ?_⟩ <;> intro n <;>
      simp [uploadBytes, uploadBytesResumable, uploadString, getMetadata,
        updateMetadata, getDownloadURLRequest, deleteObject,
        Reference.throwIfRoot, h, Bind.bind, Except.bind]

theorem root_guard_witness :
    uploadBytes ⟨⟨"bkt", ""⟩⟩ [] none =
      .error (.invalidRootOperation "uploadBytes") ∧
    deleteObject ⟨⟨"bkt", ""⟩⟩ =
      .error (.invalidRootOperation "deleteObject") ∧
    getMetadata ⟨⟨"bkt", "obj"⟩⟩ ≠
      .error (.invalidRootOperation "getMetadata") := by
  have h1 := (root_guard ⟨⟨"bkt", ""⟩⟩ [] none "" .raw {}).1 rfl
  have h2 := (root_guard ⟨⟨"bkt", "obj"⟩⟩ [] none "" .raw {}).2 (by decide)
  exact ⟨h1.1, h1.2.2.2.2.2.2, h2.2.2.2.1 "getMetadata"⟩

/-- Claim C6: `list` raises an invalid-argument error, before the list request
is built, exactly when the options carry a numeric `maxResults` outside the
inclusive range `[1, 1000]`; with `maxResults` absent, non-numeric, or inside
the range, no error is raised and the list request is built. -/
theorem list_maxResults_check (ref : Reference) (options : Option ListOptions) :
    (∀ o n, options = some o → o.maxResults = some (.num n) →
       (n < 1 ∨ 1000 < n) →
       list ref options = .error (.invalidArgument "options.maxResults")) ∧
    ((∀ o n, options = some o → o.maxResults = some (.num n) →
        1 ≤ n ∧ n ≤ 1000) →
      ∃ req, list ref options = .ok req) := by
  constructor
  · rintro o n rfl hmr hbad
    simp [list, checkListOptions, hmr, validateNumber, hbad, Bind.bind,
      Except.bind]
  · intro hgood
    cases options with
    | none =>
      exact ⟨.listReq ref.location "/" none none,
        by simp [list, checkListOptions, Bind.bind, Except.bind]⟩
    | some o =>
      cases hmr : o.maxResults with
      | none =>
        exact ⟨.listReq ref.location "/" o.pageToken o.maxResults,
          by simp [list, checkListOptions, hmr, Bind.bind, Except.bind]⟩
      | some v =>
        cases v with
        | nonNum =>
          exact ⟨.listReq ref.location "/" o.pageToken o.maxResults,
            by simp [list, checkListOptions, hmr, Bind.bind, Except.bind]⟩
        | num n =>
          have hn := hgood o n rfl hmr
          have hc : ¬(n < 1 ∨ 1000 < n) := by omega
          exact ⟨.listReq ref.location "/" o.pageToken o.maxResults,
            by simp [list, checkListOptions, hmr, validateNumber, hc,
              Bind.bind, Except.bind]⟩

theorem list_maxResults_check_witness :
    list ⟨⟨"b", "p"⟩⟩ (some { maxResults := some (.num 0) }) =
      .error (.invalidArgument "options.maxResults") ∧
    ∃ req, list ⟨⟨"b", "p"⟩⟩ none = .ok req := by
  refine ⟨?_, ?_⟩
  · exact (list_maxResults_check ⟨⟨"b", "p"⟩⟩
      (some { maxResults := some (.num 0) })).1
      { maxResults := some (.num 0) } 0 rfl rfl (by decide)
  · exact (list_maxResults_check ⟨⟨"b", "p"⟩⟩ none).2 (fun o n h => nomatch h)

/-- Claim C8: for a non-root reference, `getDownloadURL` never resolves with
null: when the underlying request resolves with a null URL the call rejects
with the distinct `noDownloadURL` error, and when it resolves with a non-null
URL the call resolves with that string unchanged. -/
theorem getDownloadURL_not_null (ref : Reference) (resp : Option String)
    (h : ref.location.path ≠ "") :
    (resp = none → getDownloadURL ref resp = .error .noDownloadURL) ∧
    (∀ url, resp = some url → getDownloadURL ref resp = .ok url) := by
  refine ⟨fun hn => ?_, fun url hu => ?_⟩
  · subst hn
    simp [getDownloadURL, getDownloadURLRequest, Reference.throwIfRoot, h,
      Bind.bind, Except.bind]
  · subst hu
    simp [getDownloadURL, getDownloadURLRequest, Reference.throwIfRoot, h,
      Bind.bind, Except.bind]

theorem getDownloadURL_not_null_witness :
    getDownloadURL ⟨⟨"b", "p"⟩⟩ none = .error .noDownloadURL ∧
    getDownloadURL ⟨⟨"b", "p"⟩⟩ (some "fake-url") = .ok "fake-url" := by
  refine ⟨?_, ?_⟩
  · exact (getDownloadURL_not_null ⟨⟨"b", "p"⟩⟩ none (by decide)).1 rfl
  · exact (getDownloadURL_not_null ⟨⟨"b", "p"⟩⟩ (some "fake-url")
      (by decide)).2 "fake-url" rfl

/-- Claim C5: a newly constructed `RequestInfo` has success codes `[200]`, no
additional retry codes, empty headers and url-parameter maps, a null body, no
error-remapping hook and no progress callback, for every choice of the four
constructor arguments. -/
theorem requestInfo_defaults (T : Type) (url method : String)
    (handler : Connection → String → T) (timeout : Int) :
    (RequestInfo.make url method handler timeout).successCodes = [200] ∧
    (RequestInfo.make url method handler timeout).additionalRetryCodes = [] ∧
    (RequestInfo.make url method handler timeout).headers = [] ∧
    (RequestInfo.make url method handler timeout).urlParams = [] ∧
    (RequestInfo.make url method handler timeout).body = none ∧
    (RequestInfo.make url method handler timeout).errorHandler = none ∧
    (RequestInfo.make url method handler timeout).progressCallback = none :=
  ⟨rfl, rfl, rfl, rfl, rfl, rfl, rfl⟩

theorem applyFieldWrites_url_method {T : Type} (ws : List (FieldWrite T)) :
    ∀ ri : RequestInfo T, (applyFieldWrites ws ri).url = ri.url ∧
      (applyFieldWrites ws ri).method = ri.method := by
  induction ws with
  | nil => intro ri; exact ⟨rfl, rfl⟩
  | cons w ws ih =>
    intro ri
    have hstep : (applyFieldWrite w ri).url = ri.url ∧
        (applyFieldWrite w ri).method = ri.method := by
      cases w <;> exact ⟨rfl, rfl⟩
    have := ih (applyFieldWrite w ri)
    exact ⟨by rw [applyFieldWrites, List.foldl_cons]; exact this.1.trans hstep.1,
           by rw [applyFieldWrites, List.foldl_cons]; exact this.2.trans hstep.2⟩

/-- Claim C7: `url` and `method` are fixed by the constructor and preserved by
every field assignment the program performs on an existing `RequestInfo`
(which, per the spec, touch only the other fields): after any sequence of
such writes they are still equal to the constructor arguments. -/
theorem requestInfo_url_method_stable (T : Type) (url method : String)
    (handler : Connection → String → T) (timeout : Int)
    (ws : List (FieldWrite T)) :
    (applyFieldWrites ws (RequestInfo.make url method handler timeout)).url
      = url ∧
    (applyFieldWrites ws (RequestInfo.make url method handler timeout)).method
      = method :=
  applyFieldWrites_url_method ws (RequestInfo.make url method handler timeout)

end Storage

namespace AuthPersistence

/-- Claim C9: `BrowserPersistence` satisfies the get-after-set round trip.
After `set(k, v)`, `get(k)` returns exactly `parse (stringify v)` — the
JavaScript `JSON.parse(JSON.stringify(v))` — hence `v` itself whenever
parse inverts stringify (plain JSON data); `get` of a key never set returns
null, and so does `get` after `remove(k)`. The hypothesis `stringify v ≠ ""`
holds for `JSON.stringify` on every defined persistence value. -/
theorem persistence_round_trip {V : Type} (stringify : V → String)
    (parse : String → V) (st : Store) (k : String) (v : V)
    (hne : stringify v ≠ "") :
    BrowserPersistence.get parse (BrowserPersistence.set stringify st k v) k =
      some (parse (stringify v)) ∧
    ((∀ w, parse (stringify w) = w) →
      BrowserPersistence.get parse (BrowserPersistence.set stringify st k v) k
        = some v) ∧
    (∀ st' : Store, st'.getItem k = none →
      BrowserPersistence.get parse st' k = none) ∧
    BrowserPersistence.get parse (BrowserPersistence.remove st k) k = none := by
  refine ⟨?_, fun hrt => ?_, fun st' hmiss => ?_, ?_⟩
  · simp [BrowserPersistence.get, BrowserPersistence.set, Store.setItem,
      Store.getItem, hne]
  · simp [BrowserPersistence.get, BrowserPersistence.set, Store.setItem,
      Store.getItem, hne, hrt]
  · simp [BrowserPersistence.get, hmiss]
  · simp [BrowserPersistence.get, BrowserPersistence.remove, Store.removeItem,
      Store.getItem]

theorem persistence_round_trip_witness :
    ((fun _ : Unit => "42") () ≠ "") ∧
    BrowserPersistence.get (fun _ => ())
      (BrowserPersistence.set (fun _ : Unit => "42") emptyStore "k" ()) "k" =
      some () :=
  ⟨by decide,
   (persistence_round_trip (fun _ : Unit => "42") (fun _ => ()) emptyStore "k"
     () (by decide)).2.1 (fun w => rfl)⟩

end AuthPersistence

namespace DatabaseUtil

theorem chunkFuelBound {a : Char} {u : List Char} {segsize n : Nat}
    (hs : (a :: u).length ≤ n + 1) (hseg : 1 ≤ segsize) :
    ((a :: u).drop segsize).length ≤ n := by
  simp only [List.length_drop, List.length_cons] at hs ⊢
  omega

theorem chunkLoop_flatten_fuel (segsize : Nat) (hseg : 1 ≤ segsize) :
    ∀ (n : Nat) (s : List Char), s.length ≤ n →
      (chunkLoop segsize s).flatten = s := by
  intro n
  induction n with
  | zero =>
    intro s hs
    have hnil : s = [] := List.eq_nil_of_length_eq_zero (Nat.le_zero.mp hs)
    subst hnil
    simp [chunkLoop]
  | succ n ih =>
    intro s hs
    cases s with
    | nil => simp [chunkLoop]
    | cons a t =>
      have hz : ¬segsize = 0 := by omega
      simp only [chunkLoop, hz, dite_false, List.flatten_cons]
      rw [ih ((a :: t).drop segsize) (chunkFuelBound hs hseg)]
      exact List.take_append_drop segsize (a :: t)

theorem chunkLoop_mem_fuel (segsize : Nat) :
    ∀ (n : Nat) (s : List Char), s.length ≤ n →
      ∀ t ∈ chunkLoop segsize s, t.length ≤ segsize := by
  intro n
  induction n with
  | zero =>
    intro s hs t ht
    have hnil : s = [] := List.eq_nil_of_length_eq_zero (Nat.le_zero.mp hs)
    subst hnil
    simp [chunkLoop] at ht
  | succ n ih =>
    intro s hs t ht
    cases s with
    | nil => simp [chunkLoop] at ht
    | cons a u =>
      by_cases hz : segsize = 0
      · simp [chunkLoop, hz] at ht
      · simp only [chunkLoop, hz, dite_false, List.mem_cons] at ht
        rcases ht with rfl | ht
        · simp
        · exact ih ((a :: u).drop segsize) (chunkFuelBound hs (by omega)) t ht

theorem chunkLoop_ne_nil_of_drop {segsize : Nat} {s : List Char}
    (h : chunkLoop segsize s = []) (hz : ¬segsize = 0) : s = [] := by
  cases s with
  | nil => rfl
  | cons a t => simp [chunkLoop, hz] at h

theorem chunkLoop_non_last_fuel (segsize : Nat) (hseg : 1 ≤ segsize) :
    ∀ (n : Nat) (s : List Char), s.length ≤ n →
      ∀ (i : Nat) (t : List Char), i + 1 < (chunkLoop segsize s).length →
        (chunkLoop segsize s).get? i = some t → t.length = segsize := by
  intro n
  induction n with
  | zero =>
    intro s hs i t hlt hget
    have hnil : s = [] := List.eq_nil_of_length_eq_zero (Nat.le_zero.mp hs)
    subst hnil
    simp [chunkLoop] at hlt
  | succ n ih =>
    intro s hs i t hlt hget
    cases s with
    | nil => simp [chunkLoop] at hlt
    | cons a u =>
      have hz : ¬segsize = 0 := by omega
      simp only [chunkLoop, hz, dite_false] at hlt hget
      cases i with
      | zero =>
        simp only [List.get?_cons_zero, Option.some.injEq] at hget
        subst hget
        have hrest : chunkLoop segsize ((a :: u).drop segsize) ≠ [] := by
          intro hempty
          rw [hempty] at hlt
          simp at hlt
        have hdrop : (a :: u).drop segsize ≠ [] := by
          intro hd
          exact hrest (by rw [hd]; simp [chunkLoop])
        have hlen : segsize < (a :: u).length := by
          by_contra hge
          exact hdrop (List.drop_eq_nil_of_le (by omega))
        have hlen' : segsize < u.length + 1 := by
          simpa using hlen
        simp only [List.length_take, List.length_cons]
        omega
      | succ j =>
        simp only [List.length_cons, Nat.add_lt_add_iff_right] at hlt
        simp only [List.get?_cons_succ] at hget
        exact ih ((a :: u).drop segsize) (chunkFuelBound hs hseg) j t hlt hget

/-- Claim C10: for every string and every segment size of at least 1,
`splitStringBySize` returns segments whose concatenation in order is the
original string, each of length at most `segsize`, and every segment except
possibly the last of length exactly `segsize`. -/
theorem splitStringBySize_spec (s : List Char) (segsize : Nat)
    (hseg : 1 ≤ segsize) :
    (splitStringBySize s segsize).flatten = s ∧
    (∀ t ∈ splitStringBySize s segsize, t.length ≤ segsize) ∧
    (∀ (i : Nat) (t : List Char),
       i + 1 < (splitStringBySize s segsize).length →
       (splitStringBySize s segsize).get? i = some t →
       t.length = segsize) := by
  unfold splitStringBySize
  by_cases hle : s.length ≤ segsize
  · simp only [hle, if_true]
    refine ⟨by simp, ?_, ?_⟩
    · intro t ht
      simp at ht
      subst ht
      exact hle
    · intro i t hlt hget
      simp at hlt
  · simp only [hle, if_false]
    exact ⟨chunkLoop_flatten_fuel segsize hseg s.length s le_rfl,
      chunkLoop_mem_fuel segsize s.length s le_rfl,
      chunkLoop_non_last_fuel segsize hseg s.length s le_rfl⟩

theorem splitStringBySize_spec_witness :
    (splitStringBySize ['a', 'b', 'c', 'd', 'e'] 2).flatten =
      ['a', 'b', 'c', 'd', 'e'] :=
  (splitStringBySize_spec ['a', 'b', 'c', 'd', 'e'] 2 (by decide)).1

end DatabaseUtil
